import Mathlib

/-!
Verification of the RANSAC + affine-transform core described by the
repository's specification.  The repository's own source under `src/` is the
demo script `doc/examples/plot_matching.py`; the estimation kernel it calls
(`skimage.measure.ransac`, `skimage.transform.AffineTransform`) is code of the
repository that is not under `src/`, so those operations are modelled from the
spec, as marked in the doc comments below.  Exact arithmetic is over `ℚ`;
strict comparisons of Euclidean residuals against a positive threshold are
encoded on squared distances, which is equivalent for positive thresholds.
-/

/-- A 2D point: pair of rational coordinates. -/
abbrev Pt : Type := ℚ × ℚ

/-- A correspondence: an ordered pair (src point, dst point). -/
abbrev Corr : Type := Pt × Pt

/-- Modelled from the spec: `AffineParameters`, the 6 real scalars of a 2D
affine map, i.e. the homogeneous matrix `[[a, b, c], [d, e, f], [0, 0, 1]]`.
(The concrete `AffineTransform` class is not under `src/`.) -/
structure AffineParams where
  a : ℚ
  b : ℚ
  c : ℚ
  d : ℚ
  e : ℚ
  f : ℚ
deriving DecidableEq, Repr

/-- Modelled from the spec: error raised by the transform model's fitting and
inversion operations when the data or matrix is degenerate. -/
inductive FitError where
  | DegenerateFit
deriving DecidableEq, Repr

/-- Modelled from the spec: errors of the robust estimator that are fatal at
call entry or after the trial loop. -/
inductive RansacError where
  | InvalidParameters
  | RobustFitFailed
deriving DecidableEq, Repr

/-- Modelled from the spec: `apply(point, params)` — the forward affine
mapping, point × matrix. -/
def applyT (T : AffineParams) (p : Pt) : Pt :=
  (T.a * p.1 + T.b * p.2 + T.c, T.d * p.1 + T.e * p.2 + T.f)

/-- Modelled from the spec: squared Euclidean residual of one correspondence —
the squared distance between the transformed source point and the destination
point.  Squares keep the computation inside `ℚ`. -/
def resSq (T : AffineParams) (cr : Corr) : ℚ :=
  ((applyT T cr.1).1 - cr.2.1) ^ 2 + ((applyT T cr.1).2 - cr.2.2) ^ 2

/-- Determinant of a 3×3 matrix given row-major. -/
def det3 (m00 m01 m02 m10 m11 m12 m20 m21 m22 : ℚ) : ℚ :=
  m00 * (m11 * m22 - m12 * m21)
    - m01 * (m10 * m22 - m12 * m20)
    + m02 * (m10 * m21 - m11 * m20)

/-- Sum of a rational-valued function over a list. -/
def lsum (g : Corr → ℚ) (data : List Corr) : ℚ :=
  (data.map g).sum

/-- Modelled from the spec: the symmetric normal matrix `AᵀA` of the affine
design matrix whose rows are `(src.x, src.y, 1)`, kept as its six distinct
entries; its determinant decides degeneracy. -/
def detN (data : List Corr) : ℚ :=
  det3 (lsum (fun cr => cr.1.1 * cr.1.1) data)
    (lsum (fun cr => cr.1.1 * cr.1.2) data)
    (lsum (fun cr => cr.1.1) data)
    (lsum (fun cr => cr.1.1 * cr.1.2) data)
    (lsum (fun cr => cr.1.2 * cr.1.2) data)
    (lsum (fun cr => cr.1.2) data)
    (lsum (fun cr => cr.1.1) data)
    (lsum (fun cr => cr.1.2) data)
    (lsum (fun _ => (1 : ℚ)) data)

/-- Modelled from the spec: `estimate(correspondences)` — solves the normal
equations of the least-squares system mapping each `(src.x, src.y, 1)` to
`(dst.x, dst.y)` by Cramer's rule (exact at the minimal sample size, least
squares when over-determined), and fails with `DegenerateFit` exactly when the
design matrix is singular (collinear or coincident source points; over exact
arithmetic the normal matrix is then singular and conversely). -/
def estimate (data : List Corr) : Except FitError AffineParams :=
  let sxx := lsum (fun cr => cr.1.1 * cr.1.1) data
  let sxy := lsum (fun cr => cr.1.1 * cr.1.2) data
  let syy := lsum (fun cr => cr.1.2 * cr.1.2) data
  let sx := lsum (fun cr => cr.1.1) data
  let sy := lsum (fun cr => cr.1.2) data
  let sn := lsum (fun _ => (1 : ℚ)) data
  let sxu := lsum (fun cr => cr.1.1 * cr.2.1) data
  let syu := lsum (fun cr => cr.1.2 * cr.2.1) data
  let su := lsum (fun cr => cr.2.1) data
  let sxv := lsum (fun cr => cr.1.1 * cr.2.2) data
  let syv := lsum (fun cr => cr.1.2 * cr.2.2) data
  let sv := lsum (fun cr => cr.2.2) data
  let det := det3 sxx sxy sx sxy syy sy sx sy sn
  if det = 0 then Except.error FitError.DegenerateFit
  else Except.ok
    { a := det3 sxu sxy sx syu syy sy su sy sn / det
      b := det3 sxx sxu sx sxy syu sy sx su sn / det
      c := det3 sxx sxy sxu sxy syy syu sx sy su / det
      d := det3 sxv sxy sx syv syy sy sv sy sn / det
      e := det3 sxx sxv sx sxy syv sy sx sv sn / det
      f := det3 sxx sxy sxv sxy syy syv sx sy sv / det }

/-- Modelled from the spec: `invert(params)` — parameters of the inverse
mapping; fails with `DegenerateFit` if the matrix is non-invertible (the
homogeneous matrix has last row `(0,0,1)`, so its determinant is `a e - b d`). -/
def invertT (T : AffineParams) : Except FitError AffineParams :=
  if T.a * T.e - T.b * T.d = 0 then Except.error FitError.DegenerateFit
  else Except.ok
    { a := T.e / (T.a * T.e - T.b * T.d)
      b := -T.b / (T.a * T.e - T.b * T.d)
      c := (T.b * T.f - T.c * T.e) / (T.a * T.e - T.b * T.d)
      d := -T.d / (T.a * T.e - T.b * T.d)
      e := T.a / (T.a * T.e - T.b * T.d)
      f := (T.c * T.d - T.a * T.f) / (T.a * T.e - T.b * T.d) }

/-- Modelled from the spec: the full-pass inlier classification — one boolean
per correspondence, over **all** correspondences, true exactly when the
residual is strictly below the threshold (encoded on squares: for `0 < t`,
`dist < t ↔ dist² < t·t`). -/
def inlierMask (T : AffineParams) (data : List Corr) (t : ℚ) : List Bool :=
  data.map (fun cr => decide (resSq T cr < t * t))

/-- Number of `true` entries of an inlier mask. -/
def countTrue (m : List Bool) : Nat :=
  (m.filter (fun b => b)).length

/-- Modelled from the spec: a seedable deterministic random source (the spec
requires an injectable, seedable sampler; a linear congruential generator
stands in for it). -/
def lcg (s : Nat) : Nat :=
  (1103515245 * s + 12345) % 2147483648

/-- Draw `k` distinct elements from a pool, consuming LCG states. -/
def drawAux : Nat → List Nat → Nat → List Nat
  | 0, _, _ => []
  | k + 1, pool, s =>
    if pool.isEmpty then []
    else
      let s1 := lcg s
      let j := s1 % pool.length
      pool.getD j 0 :: drawAux k (pool.eraseIdx j) s1

/-- Modelled from the spec: draw `min_samples` indices uniformly without
replacement from `[0, n)`, deterministically from the seed and trial number. -/
def drawSamples (seed trial n k : Nat) : List Nat :=
  drawAux k (List.range n) (lcg (seed + 1000003 * trial))

/-- Minimal sample of one trial: the correspondences at the drawn indices. -/
def sampleOf (data : List Corr) (ms seed trial : Nat) : List Corr :=
  (drawSamples seed trial data.length ms).filterMap (fun i => data.get? i)

/-- A per-trial fit result: candidate parameters, full inlier mask, inlier
count. -/
abbrev Cand : Type := AffineParams × List Bool × Nat

/-- Modelled from the spec: one RANSAC trial — fit the minimal sample; a
`DegenerateFit` discards the trial (`none`); otherwise classify **all**
correspondences against the candidate and record the full mask and count. -/
def trialCandidate (data : List Corr) (ms : Nat) (t : ℚ) (seed trial : Nat) :
    Option Cand :=
  match estimate (sampleOf data ms seed trial) with
  | Except.error _ => none
  | Except.ok p => some (p, inlierMask p data t, countTrue (inlierMask p data t))

/-- Modelled from the spec: the valid candidates of the first `max_trials`
trials, in trial order; degenerate trials contribute nothing. -/
def candidates (data : List Corr) (ms : Nat) (t : ℚ) (mt seed : Nat) :
    List Cand :=
  (List.range mt).filterMap (trialCandidate data ms t seed)

/-- Modelled from the spec: best-snapshot update — replace only on a strictly
greater inlier count, so the earlier candidate is retained on ties. -/
def betterCand (b cand : Cand) : Cand :=
  if b.2.2 < cand.2.2 then cand else b

/-- Modelled from the spec: fold of the best-snapshot update over the trial
candidates in order; `none` when no trial produced a valid candidate. -/
def selectBest (l : List Cand) : Option Cand :=
  match l with
  | [] => none
  | cand :: rest => some (rest.foldl betterCand cand)

/-- Correspondences selected by a boolean mask (the inliers of a snapshot). -/
def maskFilter (data : List Corr) (m : List Bool) : List Corr :=
  ((data.zip m).filter (fun pb => pb.2)).map (fun pb => pb.1)

/-- Modelled from the spec: the entry-validation predicate of `ransac` —
`min_samples` within [model minimum 3, correspondence count], positive
`residual_threshold`, nonzero `max_trials`. -/
def validParams (data : List Corr) (ms : Nat) (t : ℚ) (mt : Nat) : Prop :=
  3 ≤ ms ∧ ms ≤ data.length ∧ 0 < t ∧ 0 < mt

instance (data : List Corr) (ms : Nat) (t : ℚ) (mt : Nat) :
    Decidable (validParams data ms t mt) :=
  inferInstanceAs (Decidable (_ ∧ _ ∧ _ ∧ _))

/-- Modelled from the spec: `ransac` — validate parameters at entry
(`InvalidParameters`), run up to `max_trials` trials, keep the earliest
best snapshot under the strictly-greater rule, then re-estimate on all
inliers of the best snapshot and recompute the mask under the refined model
(keeping the snapshot itself if the refit is degenerate); `RobustFitFailed`
when no trial produced a valid candidate. -/
def ransac (data : List Corr) (ms : Nat) (t : ℚ) (mt seed : Nat) :
    Except RansacError (AffineParams × List Bool) :=
  if validParams data ms t mt then
    match selectBest (candidates data ms t mt seed) with
    | none => Except.error RansacError.RobustFitFailed
    | some best =>
      match estimate (maskFilter data best.2.1) with
      | Except.ok p => Except.ok (p, inlierMask p data t)
      | Except.error _ => Except.ok (best.1, best.2.1)
  else Except.error RansacError.InvalidParameters

/-- Index of the first minimum of a list of scores, as `np.argmin` computes
it: accumulator scan keeping the earliest strict minimum. -/
def argminAux : Nat → Nat → ℚ → List ℚ → Nat
  | _, best, _, [] => best
  | i, best, bv, v :: vs =>
    if v < bv then argminAux (i + 1) i v vs else argminAux (i + 1) best bv vs

/-- Index of the first minimum of a nonempty list (0 on the empty list). -/
def argmin : List ℚ → Nat
  | [] => 0
  | v :: vs => argminAux 1 0 v vs

/-- The `match_corner` routine of `doc/examples/plot_matching.py`: score every
corner of the warped image by the weighted sum of squared differences to the
query's window (the image-dependent scoring is the parameter `ssd`), and
return the subpixel corner at the index of minimal score. -/
def matchCorner (coordsWarped coordsWarpedSubpix : List Pt) (ssd : Pt → ℚ) :
    Pt :=
  coordsWarpedSubpix.getD (argmin (coordsWarped.map ssd)) (0, 0)

/-- The correspondence-building loop of `doc/examples/plot_matching.py`: for
each subpixel corner of the original image, append it to `src` and append
`match_corner` of it to `dst`. -/
def buildCorrespondences (coordsOrigSubpix coordsWarped coordsWarpedSubpix :
    List Pt) (ssdOf : Pt → Pt → ℚ) : List Pt × List Pt :=
  (coordsOrigSubpix,
    coordsOrigSubpix.map
      (fun coord => matchCorner coordsWarped coordsWarpedSubpix (ssdOf coord)))

/-- Concrete witness data: three correspondences whose source points are in
general position and which are related by the affine map (x, y) ↦ (x+1, y+1). -/
def wData : List Corr :=
  [(((0 : ℚ), (0 : ℚ)), ((1 : ℚ), (1 : ℚ))),
   (((1 : ℚ), (0 : ℚ)), ((2 : ℚ), (1 : ℚ))),
   (((0 : ℚ), (1 : ℚ)), ((1 : ℚ), (2 : ℚ)))]

/-- Concrete witness data: three correspondences whose source points are
collinear (all on the line y = x). -/
def wDataCol : List Corr :=
  [(((0 : ℚ), (0 : ℚ)), ((0 : ℚ), (0 : ℚ))),
   (((1 : ℚ), (1 : ℚ)), ((2 : ℚ), (0 : ℚ))),
   (((2 : ℚ), (2 : ℚ)), ((7 : ℚ), (5 : ℚ)))]

/-- Sources of a correspondence list. -/
def srcPts (data : List Corr) : List Pt :=
  data.map Prod.fst

/-- Collinearity (coincident points included): all points lie on one line
`α x + β y + γ = 0` with `(α, β) ≠ (0, 0)`. -/
def collinearPts (pts : List Pt) : Prop :=
  ∃ α β γ : ℚ, (α ≠ 0 ∨ β ≠ 0) ∧ ∀ p ∈ pts, α * p.1 + β * p.2 + γ = 0

/-- The normal matrix `AᵀA` of the affine design matrix, as a `Matrix` value
(used to reason about singularity; `detN` is its determinant). -/
def nMat (data : List Corr) : Matrix (Fin 3) (Fin 3) ℚ :=
  !![lsum (fun cr => cr.1.1 * cr.1.1) data,
      lsum (fun cr => cr.1.1 * cr.1.2) data, lsum (fun cr => cr.1.1) data;
    lsum (fun cr => cr.1.1 * cr.1.2) data,
      lsum (fun cr => cr.1.2 * cr.1.2) data, lsum (fun cr => cr.1.2) data;
    lsum (fun cr => cr.1.1) data, lsum (fun cr => cr.1.2) data,
      lsum (fun _ => (1 : ℚ)) data]

lemma argminAux_lt (vs : List ℚ) :
    ∀ i best bv, best < i → argminAux i best bv vs < i + vs.length := by
  induction vs with
  | nil => intro i best bv h; simpa [argminAux] using h.trans_le (Nat.le_add_right i 0)
  | cons v vs ih =>
    intro i best bv h
    simp only [argminAux, List.length_cons]
    by_cases hv : v < bv
    · rw [if_pos hv]
      have := ih (i + 1) i v (Nat.lt_succ_self i)
      omega
    · rw [if_neg hv]
      have := ih (i + 1) best bv (by omega)
      omega

lemma argmin_lt (l : List ℚ) (h : l ≠ []) : argmin l < l.length := by
  cases l with
  | nil => exact absurd rfl h
  | cons v vs =>
    have h1 := argminAux_lt vs 1 0 v (by omega)
    simp only [argmin, List.length_cons]
    omega

/-- C1: for every candidate model produced in a RANSAC trial, the inlier
classification is a full pass over all correspondences: the mask has one entry
per correspondence, the entry at each index is exactly the strict-threshold
test of that correspondence's residual, and the mask and count recorded by a
trial are precisely this full reclassification for the trial's parameters. -/
theorem inlierMask_full_pass (T : AffineParams) (data : List Corr) (t : ℚ)
    (ms seed trial : Nat) :
    (inlierMask T data t).length = data.length ∧
    (∀ i : Nat, (inlierMask T data t)[i]? =
      data[i]?.map (fun cr => decide (resSq T cr < t * t))) ∧
    (∀ cand : Cand, trialCandidate data ms t seed trial = some cand →
      cand.2.1 = inlierMask cand.1 data t ∧
      cand.2.2 = countTrue (inlierMask cand.1 data t)) := by
  refine ⟨by simp [inlierMask], fun i => ?_, fun cand h => ?_⟩
  · simp only [inlierMask, List.getElem?_map]
  · unfold trialCandidate at h
    cases hes : estimate (sampleOf data ms seed trial) with
    | error e => rw [hes] at h; cases h
    | ok p => rw [hes] at h; cases h; exact ⟨rfl, rfl⟩

/-- C1 witness: on concrete data the trial at seed 0 produces a candidate
whose stored mask is the full reclassification pass. -/
theorem inlierMask_full_pass_witness :
    trialCandidate wData 3 2 0 0 =
      some (⟨1, 0, 1, 0, 1, 1⟩, [true, true, true], 3) ∧
    ([true, true, true] : List Bool) =
      inlierMask ⟨1, 0, 1, 0, 1, 1⟩ wData 2 := by
  have h : trialCandidate wData 3 2 0 0 =
      some (⟨1, 0, 1, 0, 1, 1⟩, [true, true, true], 3) := by
    simp only [trialCandidate]
    have hs : sampleOf wData 3 0 0 =
        [(((1 : ℚ), (0 : ℚ)), ((2 : ℚ), (1 : ℚ))),
         (((0 : ℚ), (1 : ℚ)), ((1 : ℚ), (2 : ℚ))),
         (((0 : ℚ), (0 : ℚ)), ((1 : ℚ), (1 : ℚ)))] := by rfl
    rw [hs]
    have he : estimate
        [(((1 : ℚ), (0 : ℚ)), ((2 : ℚ), (1 : ℚ))),
         (((0 : ℚ), (1 : ℚ)), ((1 : ℚ), (2 : ℚ))),
         (((0 : ℚ), (0 : ℚ)), ((1 : ℚ), (1 : ℚ)))] =
        Except.ok ⟨1, 0, 1, 0, 1, 1⟩ := by
      simp [estimate, lsum, det3]; norm_num
    rw [he]
    simp [inlierMask, countTrue, resSq, applyT, wData]
    norm_num
  exact ⟨h, ((inlierMask_full_pass ⟨1, 0, 1, 0, 1, 1⟩ wData 2 3 0 0).2.2 _ h).1⟩

/-- C7: for non-degenerate affine parameters the inverse returned by `invertT`
composes with the forward map to the identity in both orders, and `invertT`
fails with `DegenerateFit` exactly when the matrix is non-invertible. -/
theorem invertT_round_trip (T : AffineParams) (p : Pt) :
    (T.a * T.e - T.b * T.d ≠ 0 →
      ∃ Ti : AffineParams, invertT T = Except.ok Ti ∧
        applyT Ti (applyT T p) = p ∧ applyT T (applyT Ti p) = p) ∧
    (T.a * T.e - T.b * T.d = 0 →
      invertT T = Except.error FitError.DegenerateFit) := by
  constructor
  · intro h
    refine ⟨⟨T.e / (T.a * T.e - T.b * T.d), -T.b / (T.a * T.e - T.b * T.d),
      (T.b * T.f - T.c * T.e) / (T.a * T.e - T.b * T.d),
      -T.d / (T.a * T.e - T.b * T.d), T.a / (T.a * T.e - T.b * T.d),
      (T.c * T.d - T.a * T.f) / (T.a * T.e - T.b * T.d)⟩,
      by simp only [invertT, if_neg h], ?_, ?_⟩
    · simp only [applyT, Prod.ext_iff]
      constructor <;> (field_simp; ring)
    · simp only [applyT, Prod.ext_iff]
      constructor <;> (field_simp; ring)
  · intro h
    simp only [invertT, if_pos h]

/-- C7 witness: a concrete invertible affine map round-trips a concrete
point through its inverse. -/
theorem invertT_round_trip_witness :
    (2 : ℚ) * 3 - 0 * 0 ≠ 0 ∧
    ∃ Ti : AffineParams, invertT ⟨2, 0, 1, 0, 3, 5⟩ = Except.ok Ti ∧
      applyT Ti (applyT ⟨2, 0, 1, 0, 3, 5⟩ ((7 : ℚ), (9 : ℚ))) = ((7 : ℚ), (9 : ℚ)) ∧
      applyT ⟨2, 0, 1, 0, 3, 5⟩ (applyT Ti ((7 : ℚ), (9 : ℚ))) = ((7 : ℚ), (9 : ℚ)) :=
  ⟨by norm_num, (invertT_round_trip ⟨2, 0, 1, 0, 3, 5⟩ ((7 : ℚ), (9 : ℚ))).1 (by norm_num)⟩

/-- C8: calling `ransac` with `min_samples` greater than the correspondence
count fails at entry with `InvalidParameters`, and the result is independent
of the seed and of the trial budget — no trial is executed. -/
theorem ransac_entry_validation (data : List Corr) (ms : Nat) (t : ℚ)
    (mt seed : Nat) (h : data.length < ms) :
    ransac data ms t mt seed = Except.error RansacError.InvalidParameters ∧
    ∀ mt2 seed2 : Nat, ransac data ms t mt2 seed2 = ransac data ms t mt seed := by
  have hv : ∀ mt2 : Nat, ¬ validParams data ms t mt2 := by
    intro mt2 hv
    exact absurd hv.2.1 (by omega)
  refine ⟨?_, fun mt2 seed2 => ?_⟩
  · simp only [ransac, if_neg (hv mt)]
  · simp only [ransac, if_neg (hv mt), if_neg (hv mt2)]

/-- C8 witness: three correspondences with `min_samples = 4` fail at entry. -/
theorem ransac_entry_validation_witness :
    ransac wData 4 2 100 0 = Except.error RansacError.InvalidParameters ∧
    ransac wData 4 2 7 3 = ransac wData 4 2 100 0 := by
  have h := ransac_entry_validation wData 4 2 100 0 (by simp [wData])
  exact ⟨h.1, h.2 7 3⟩

/-- C9: `ransac` runs on identical inputs (same correspondences, parameters
and seed) return identical results — determinism under a fixed seed, the
random source being a pure function of the seed. -/
theorem ransac_deterministic (d1 d2 : List Corr) (ms1 ms2 : Nat) (t1 t2 : ℚ)
    (mt1 mt2 s1 s2 : Nat) (hd : d1 = d2) (hm : ms1 = ms2) (ht : t1 = t2)
    (hmt : mt1 = mt2) (hs : s1 = s2) :
    ransac d1 ms1 t1 mt1 s1 = ransac d2 ms2 t2 mt2 s2 := by
  subst hd hm ht hmt hs; rfl

/-- C9 witness: two runs on concrete identical inputs agree. -/
theorem ransac_deterministic_witness :
    ransac wData 3 2 5 0 = ransac wData 3 2 5 0 :=
  ransac_deterministic wData wData 3 3 2 2 5 5 0 0 rfl rfl rfl rfl rfl

/-- C10: the correspondence-building loop appends exactly one destination per
source point, so the two sequences have equal length, and every destination
is an element of the warped subpixel corner set. -/
theorem buildCorrespondences_contract (coords warped subpix : List Pt)
    (ssdOf : Pt → Pt → ℚ) (hw : warped ≠ [])
    (hl : subpix.length = warped.length) :
    (buildCorrespondences coords warped subpix ssdOf).1.length =
      (buildCorrespondences coords warped subpix ssdOf).2.length ∧
    ∀ d ∈ (buildCorrespondences coords warped subpix ssdOf).2, d ∈ subpix := by
  constructor
  · simp [buildCorrespondences]
  · intro d hd
    simp only [buildCorrespondences, List.mem_map] at hd
    obtain ⟨coord, _, rfl⟩ := hd
    unfold matchCorner
    have hlt : argmin (warped.map (ssdOf coord)) < subpix.length := by
      have h1 : warped.map (ssdOf coord) ≠ [] := by
        simpa using hw
      have h2 := argmin_lt (warped.map (ssdOf coord)) h1
      rw [List.length_map] at h2
      omega
    rw [List.getD_eq_getElem _ _ hlt]
    exact List.getElem_mem hlt

lemma foldl_betterCand_spec (l : List Cand) : ∀ b : Cand,
    (l.foldl betterCand b = b ∧ ∀ c ∈ l, c.2.2 ≤ b.2.2) ∨
    (∃ l1 l2, l = l1 ++ l.foldl betterCand b :: l2 ∧
      b.2.2 < (l.foldl betterCand b).2.2 ∧
      (∀ c ∈ l1, c.2.2 < (l.foldl betterCand b).2.2) ∧
      (∀ c ∈ l2, c.2.2 ≤ (l.foldl betterCand b).2.2)) := by
  induction l with
  | nil => intro b; left; exact ⟨rfl, by simp⟩
  | cons c t ih =>
    intro b
    by_cases hc : b.2.2 < c.2.2
    · have hstep : (c :: t).foldl betterCand b = t.foldl betterCand c := by
        simp [List.foldl_cons, betterCand, hc]
      rw [hstep]
      rcases ih c with ⟨h1, h2⟩ | ⟨l1, l2, heq, hb, h3, h4⟩
      · right
        refine ⟨[], t, ?_, ?_, by simp, ?_⟩
        · rw [h1]; rfl
        · rw [h1]; exact hc
        · rw [h1]; exact h2
      · right
        refine ⟨c :: l1, l2, ?_, lt_trans hc hb, ?_, h4⟩
        · rw [List.cons_append, ← heq]
        · intro x hx
          rcases List.mem_cons.mp hx with rfl | hx
          · exact hb
          · exact h3 x hx
    · have hstep : (c :: t).foldl betterCand b = t.foldl betterCand b := by
        simp [List.foldl_cons, betterCand, hc]
      rw [hstep]
      rcases ih b with ⟨h1, h2⟩ | ⟨l1, l2, heq, hb, h3, h4⟩
      · left
        refine ⟨h1, fun x hx => ?_⟩
        rcases List.mem_cons.mp hx with rfl | hx
        · omega
        · exact h2 x hx
      · right
        refine ⟨c :: l1, l2, ?_, hb, ?_, h4⟩
        · rw [List.cons_append, ← heq]
        · intro x hx
          rcases List.mem_cons.mp hx with rfl | hx
          · omega
          · exact h3 x hx

/-- C2: the best snapshot is replaced only on a strictly greater inlier count
(kept unchanged otherwise), and consequently the snapshot selected from the
ordered candidate list is the earliest candidate attaining the maximal inlier
count: every candidate counts at most as many inliers, and every candidate
from an earlier trial counts strictly fewer. -/
theorem selectBest_earliest_max :
    (∀ b c : Cand, (b.2.2 < c.2.2 → betterCand b c = c) ∧
      (¬ b.2.2 < c.2.2 → betterCand b c = b)) ∧
    (∀ l : List Cand, ∀ best : Cand, selectBest l = some best →
      best ∈ l ∧ (∀ c ∈ l, c.2.2 ≤ best.2.2) ∧
      ∃ l1 l2, l = l1 ++ best :: l2 ∧ ∀ c ∈ l1, c.2.2 < best.2.2) := by
  constructor
  · intro b c
    exact ⟨fun h => by simp [betterCand, h], fun h => by simp [betterCand, h]⟩
  · intro l best h
    cases l with
    | nil => cases h
    | cons c t =>
      have hbest : t.foldl betterCand c = best := by
        simpa [selectBest] using h
      rcases foldl_betterCand_spec t c with ⟨h1, h2⟩ | ⟨l1, l2, heq, hb, h3, h4⟩
      · rw [h1] at hbest
        subst hbest
        refine ⟨List.mem_cons_self .., fun x hx => ?_, [], t, by simp, by simp⟩
        rcases List.mem_cons.mp hx with rfl | hx
        · exact le_refl _
        · exact h2 x hx
      · rw [hbest] at heq hb h3 h4
        refine ⟨?_, fun x hx => ?_, c :: l1, l2, ?_, ?_⟩
        · exact List.mem_cons_of_mem _ (heq ▸ List.mem_append_right l1 (List.mem_cons_self ..))
        · rcases List.mem_cons.mp hx with rfl | hx
          · exact le_of_lt hb
          · rw [heq] at hx
            rcases List.mem_append.mp hx with hx | hx
            · exact le_of_lt (h3 x hx)
            · rcases List.mem_cons.mp hx with rfl | hx
              · exact le_refl _
              · exact h4 x hx
        · rw [List.cons_append, ← heq]
        · intro x hx
          rcases List.mem_cons.mp hx with rfl | hx
          · exact hb
          · exact h3 x hx

/-- C2 witness: on a concrete candidate list with a tied count, the earlier
candidate is selected, and the no-replacement step keeps the accumulator. -/
theorem selectBest_earliest_max_witness :
    betterCand ((⟨0, 0, 0, 0, 0, 0⟩ : AffineParams), [true, false], 1)
        ((⟨1, 0, 0, 0, 0, 0⟩ : AffineParams), [false, true], 1) =
      ((⟨0, 0, 0, 0, 0, 0⟩ : AffineParams), [true, false], 1) ∧
    ((⟨0, 0, 0, 0, 0, 0⟩ : AffineParams), [true, false], 1) ∈
      ([((⟨0, 0, 0, 0, 0, 0⟩ : AffineParams), [true, false], 1),
        ((⟨1, 0, 0, 0, 0, 0⟩ : AffineParams), [false, true], 1)] : List Cand) ∧
    (∀ c ∈ ([((⟨0, 0, 0, 0, 0, 0⟩ : AffineParams), [true, false], 1),
        ((⟨1, 0, 0, 0, 0, 0⟩ : AffineParams), [false, true], 1)] : List Cand),
      c.2.2 ≤ 1) ∧
    ∃ l1 l2, ([((⟨0, 0, 0, 0, 0, 0⟩ : AffineParams), [true, false], 1),
        ((⟨1, 0, 0, 0, 0, 0⟩ : AffineParams), [false, true], 1)] : List Cand) =
      l1 ++ ((⟨0, 0, 0, 0, 0, 0⟩ : AffineParams), [true, false], 1) :: l2 ∧
      ∀ c ∈ l1, c.2.2 < 1 := by
  refine ⟨(selectBest_earliest_max.1 _ _).2 (by decide), ?_⟩
  exact selectBest_earliest_max.2 _ _ rfl

lemma selectBest_eq_none_iff (l : List Cand) : selectBest l = none ↔ l = [] := by
  cases l with
  | nil => simp [selectBest]
  | cons c t => simp [selectBest]

lemma candidates_eq_nil_iff (data : List Corr) (ms : Nat) (t : ℚ)
    (mt seed : Nat) :
    candidates data ms t mt seed = [] ↔
      ∀ tr < mt, trialCandidate data ms t seed tr = none := by
  unfold candidates
  rw [List.filterMap_eq_nil_iff]
  constructor
  · intro h tr htr
    exact h tr (List.mem_range.mpr htr)
  · intro h tr htr
    exact h tr (List.mem_range.mp htr)

lemma wDataCol_estimate_deg :
    estimate (sampleOf wDataCol 3 0 0) = Except.error FitError.DegenerateFit := by
  have hs : sampleOf wDataCol 3 0 0 =
      [(((1 : ℚ), (1 : ℚ)), ((2 : ℚ), (0 : ℚ))),
       (((2 : ℚ), (2 : ℚ)), ((7 : ℚ), (5 : ℚ))),
       (((0 : ℚ), (0 : ℚ)), ((0 : ℚ), (0 : ℚ)))] := by rfl
  rw [hs]
  simp [estimate, lsum, det3]

/-- C4: a trial whose minimal sample yields `DegenerateFit` from `estimate`
is discarded — it produces no candidate; every candidate of the trial loop
comes from a trial whose estimate succeeded; and whenever any trial of the
loop produced a candidate, `ransac` returns a success, so a degenerate trial
never terminates the estimator with an error and never becomes a candidate
for the best snapshot. -/
theorem degenerate_trial_discarded (data : List Corr) (ms : Nat) (t : ℚ)
    (mt seed trial : Nat)
    (hdeg : estimate (sampleOf data ms seed trial) =
      Except.error FitError.DegenerateFit) :
    trialCandidate data ms t seed trial = none ∧
    (∀ cand ∈ candidates data ms t mt seed, ∃ tr, tr < mt ∧
      trialCandidate data ms t seed tr = some cand ∧
      estimate (sampleOf data ms seed tr) = Except.ok cand.1) ∧
    (validParams data ms t mt → ∀ tr, tr < mt → ∀ cand : Cand,
      trialCandidate data ms t seed tr = some cand →
      ∃ res, ransac data ms t mt seed = Except.ok res) := by
  refine ⟨?_, fun cand hmem => ?_, fun hv tr htr cand htc => ?_⟩
  · unfold trialCandidate
    rw [hdeg]
  · obtain ⟨tr, htr, hf⟩ := List.mem_filterMap.mp hmem
    refine ⟨tr, List.mem_range.mp htr, hf, ?_⟩
    unfold trialCandidate at hf
    cases hes : estimate (sampleOf data ms seed tr) with
    | error e => rw [hes] at hf; cases hf
    | ok p => rw [hes] at hf; cases hf; rfl
  · have hmem : cand ∈ candidates data ms t mt seed :=
      List.mem_filterMap.mpr ⟨tr, List.mem_range.mpr htr, htc⟩
    have hne : candidates data ms t mt seed ≠ [] := by
      intro hnil
      rw [hnil] at hmem
      cases hmem
    cases hsel : selectBest (candidates data ms t mt seed) with
    | none => exact absurd ((selectBest_eq_none_iff _).mp hsel) hne
    | some b =>
      cases hre : estimate (maskFilter data b.2.1) with
      | ok p =>
        refine ⟨(p, inlierMask p data t), ?_⟩
        simp only [ransac, if_pos hv, hsel, hre]
      | error e =>
        refine ⟨(b.1, b.2.1), ?_⟩
        simp only [ransac, if_pos hv, hsel, hre]

/-- C4 witness: a collinear minimal sample at trial 0 is discarded. -/
theorem degenerate_trial_discarded_witness :
    trialCandidate wDataCol 3 2 0 0 = none :=
  (degenerate_trial_discarded wDataCol 3 2 1 0 0 wDataCol_estimate_deg).1

/-- C5: under valid parameters, `ransac` fails with `RobustFitFailed` exactly
when every trial within the budget was degenerate; and when a best snapshot
exists and its inlier refit succeeds, the returned model is the re-estimate
on all inlier correspondences of that snapshot together with the mask
recomputed under the refined model. -/
theorem ransac_final_refit (data : List Corr) (ms : Nat) (t : ℚ)
    (mt seed : Nat) (hv : validParams data ms t mt) :
    (ransac data ms t mt seed = Except.error RansacError.RobustFitFailed ↔
      ∀ tr < mt, trialCandidate data ms t seed tr = none) ∧
    (∀ best : Cand, selectBest (candidates data ms t mt seed) = some best →
      ∀ p : AffineParams, estimate (maskFilter data best.2.1) = Except.ok p →
      ransac data ms t mt seed = Except.ok (p, inlierMask p data t)) := by
  constructor
  · constructor
    · intro herr
      rw [← candidates_eq_nil_iff data ms t mt seed,
        ← selectBest_eq_none_iff]
      cases hsel : selectBest (candidates data ms t mt seed) with
      | none => rfl
      | some b =>
        cases hre : estimate (maskFilter data b.2.1) with
        | ok p =>
          simp only [ransac, if_pos hv, hsel, hre] at herr
          cases herr
        | error e =>
          simp only [ransac, if_pos hv, hsel, hre] at herr
          cases herr
    · intro hall
      have hnil : candidates data ms t mt seed = [] :=
        (candidates_eq_nil_iff data ms t mt seed).mpr hall
      simp only [ransac, if_pos hv, hnil, selectBest]
  · intro best hsel p hre
    simp only [ransac, if_pos hv, hsel, hre]

/-- C5 witness: with every source triple collinear, the single trial is
degenerate and `ransac` fails with `RobustFitFailed`. -/
theorem ransac_final_refit_witness :
    ransac wDataCol 3 2 1 0 = Except.error RansacError.RobustFitFailed := by
  have hv : validParams wDataCol 3 2 1 := by
    refine ⟨le_refl 3, ?_, by norm_num, Nat.zero_lt_one⟩
    simp [wDataCol]
  refine ((ransac_final_refit wDataCol 3 2 1 0 hv).1).mpr ?_
  intro tr htr
  have htr0 : tr = 0 := by omega
  subst htr0
  unfold trialCandidate
  rw [wDataCol_estimate_deg]

/-- C10 witness: one source corner, one warped corner, one subpixel corner. -/
theorem buildCorrespondences_contract_witness :
    (buildCorrespondences [((0 : ℚ), (0 : ℚ))] [((1 : ℚ), (1 : ℚ))]
        [((5 : ℚ), (5 : ℚ))] (fun _ _ => 0)).1.length =
      (buildCorrespondences [((0 : ℚ), (0 : ℚ))] [((1 : ℚ), (1 : ℚ))]
        [((5 : ℚ), (5 : ℚ))] (fun _ _ => 0)).2.length ∧
    ∀ d ∈ (buildCorrespondences [((0 : ℚ), (0 : ℚ))] [((1 : ℚ), (1 : ℚ))]
        [((5 : ℚ), (5 : ℚ))] (fun _ _ => 0)).2, d ∈ [((5 : ℚ), (5 : ℚ))] :=
  buildCorrespondences_contract [((0 : ℚ), (0 : ℚ))] [((1 : ℚ), (1 : ℚ))]
    [((5 : ℚ), (5 : ℚ))] (fun _ _ => 0) (List.cons_ne_nil _ _) rfl

lemma lsum_cons (g : Corr → ℚ) (c : Corr) (t : List Corr) :
    lsum g (c :: t) = g c + lsum g t := by
  simp [lsum]

lemma lsum_congr_mem (F G : Corr → ℚ) (data : List Corr)
    (h : ∀ cr ∈ data, F cr = G cr) : lsum F data = lsum G data := by
  induction data with
  | nil => rfl
  | cons c t ih =>
    rw [lsum_cons, lsum_cons, h c (List.mem_cons_self ..),
      ih (fun cr hcr => h cr (List.mem_cons_of_mem _ hcr))]

lemma lsum_smul3 (F G H : Corr → ℚ) (al be ga : ℚ) (data : List Corr) :
    lsum (fun cr => al * F cr + be * G cr + ga * H cr) data =
      al * lsum F data + be * lsum G data + ga * lsum H data := by
  induction data with
  | nil => simp [lsum]
  | cons c t ih =>
    rw [lsum_cons, lsum_cons, lsum_cons, lsum_cons, ih]
    ring

lemma lsum_sq_nonneg (g : Corr → ℚ) (data : List Corr) :
    0 ≤ lsum (fun cr => g cr ^ 2) data := by
  induction data with
  | nil => simp [lsum]
  | cons c t ih =>
    rw [lsum_cons]
    have := sq_nonneg (g c)
    linarith

lemma lsum_sq_eq_zero (g : Corr → ℚ) (data : List Corr)
    (h : lsum (fun cr => g cr ^ 2) data = 0) : ∀ cr ∈ data, g cr = 0 := by
  induction data with
  | nil => intro cr hcr; cases hcr
  | cons c t ih =>
    rw [lsum_cons] at h
    have h1 : 0 ≤ g c ^ 2 := sq_nonneg _
    have h2 := lsum_sq_nonneg g t
    have hc : g c ^ 2 = 0 := by linarith
    have ht : lsum (fun cr => g cr ^ 2) t = 0 := by linarith
    intro cr hcr
    rcases List.mem_cons.mp hcr with rfl | hcr
    · exact sq_eq_zero_iff.mp hc
    · exact ih ht cr hcr

lemma detN_eq (data : List Corr) : detN data = (nMat data).det := by
  rw [Matrix.det_fin_three]
  simp [nMat, detN, det3]
  ring

lemma nMat_mulVec (data : List Corr) (al be ga : ℚ) :
    (nMat data).mulVec ![al, be, ga] =
      ![lsum (fun cr => cr.1.1 * (al * cr.1.1 + be * cr.1.2 + ga)) data,
        lsum (fun cr => cr.1.2 * (al * cr.1.1 + be * cr.1.2 + ga)) data,
        lsum (fun cr => al * cr.1.1 + be * cr.1.2 + ga) data] := by
  funext i
  fin_cases i
  · simp [nMat, Matrix.mulVec, Matrix.dotProduct, Fin.sum_univ_three]
    rw [show lsum (fun cr => cr.1.1 * (al * cr.1.1 + be * cr.1.2 + ga)) data =
      al * lsum (fun cr => cr.1.1 * cr.1.1) data +
      be * lsum (fun cr => cr.1.1 * cr.1.2) data +
      ga * lsum (fun cr => cr.1.1) data from by
        rw [← lsum_smul3]
        exact lsum_congr_mem _ _ _ (fun cr _ => by ring)]
    ring
  · simp [nMat, Matrix.mulVec, Matrix.dotProduct, Fin.sum_univ_three]
    rw [show lsum (fun cr => cr.1.2 * (al * cr.1.1 + be * cr.1.2 + ga)) data =
      al * lsum (fun cr => cr.1.1 * cr.1.2) data +
      be * lsum (fun cr => cr.1.2 * cr.1.2) data +
      ga * lsum (fun cr => cr.1.2) data from by
        rw [← lsum_smul3]
        exact lsum_congr_mem _ _ _ (fun cr _ => by ring)]
    ring
  · simp [nMat, Matrix.mulVec, Matrix.dotProduct, Fin.sum_univ_three]
    rw [show lsum (fun cr => al * cr.1.1 + be * cr.1.2 + ga) data =
      al * lsum (fun cr => cr.1.1) data +
      be * lsum (fun cr => cr.1.2) data +
      ga * lsum (fun _ => (1 : ℚ)) data from by
        rw [← lsum_smul3]
        exact lsum_congr_mem _ _ _ (fun cr _ => by ring)]
    ring

lemma collinear_iff_detN_zero (data : List Corr) (hne : data ≠ []) :
    collinearPts (srcPts data) ↔ detN data = 0 := by
  constructor
  · rintro ⟨al, be, ga, hab, hall⟩
    have hq : ∀ cr ∈ data, al * cr.1.1 + be * cr.1.2 + ga = 0 := by
      intro cr hcr
      exact hall cr.1 (List.mem_map_of_mem _ hcr)
    rw [detN_eq]
    apply Matrix.exists_mulVec_eq_zero_iff.mp
    refine ⟨![al, be, ga], ?_, ?_⟩
    · intro h0
      rcases hab with h | h
      · exact h (congrFun h0 0)
      · exact h (congrFun h0 1)
    · rw [nMat_mulVec]
      funext i
      fin_cases i
      · simpa using lsum_congr_mem _ (fun _ => 0) data
          (fun cr hcr => by rw [hq cr hcr]; ring) |>.trans (by simp [lsum])
      · simpa using lsum_congr_mem _ (fun _ => 0) data
          (fun cr hcr => by rw [hq cr hcr]; ring) |>.trans (by simp [lsum])
      · simpa using lsum_congr_mem _ (fun _ => 0) data
          (fun cr hcr => hq cr hcr) |>.trans (by simp [lsum])
  · intro hdet
    rw [detN_eq] at hdet
    obtain ⟨v, hv0, hmv⟩ := Matrix.exists_mulVec_eq_zero_iff.mpr hdet
    have hvec : v = ![v 0, v 1, v 2] := by
      funext i
      fin_cases i <;> rfl
    rw [hvec, nMat_mulVec] at hmv
    have h0 := congrFun hmv 0
    have h1 := congrFun hmv 1
    have h2 := congrFun hmv 2
    simp only [Matrix.cons_val_zero, Matrix.cons_val_one, Matrix.head_cons,
      Matrix.cons_val_two, Matrix.tail_cons, Pi.zero_apply] at h0 h1 h2
    have hsq : lsum (fun cr => (v 0 * cr.1.1 + v 1 * cr.1.2 + v 2) ^ 2) data = 0 := by
      rw [show lsum (fun cr => (v 0 * cr.1.1 + v 1 * cr.1.2 + v 2) ^ 2) data =
        v 0 * lsum (fun cr => cr.1.1 * (v 0 * cr.1.1 + v 1 * cr.1.2 + v 2)) data +
        v 1 * lsum (fun cr => cr.1.2 * (v 0 * cr.1.1 + v 1 * cr.1.2 + v 2)) data +
        v 2 * lsum (fun cr => v 0 * cr.1.1 + v 1 * cr.1.2 + v 2) data from by
          rw [← lsum_smul3]
          exact lsum_congr_mem _ _ _ (fun cr _ => by ring)]
      rw [h0, h1, h2]
      ring
    have hzero := lsum_sq_eq_zero _ data hsq
    have hab : v 0 ≠ 0 ∨ v 1 ≠ 0 := by
      by_contra hcon
      push_neg at hcon
      obtain ⟨ha, hb⟩ := hcon
      cases data with
      | nil => exact hne rfl
      | cons cr t =>
        have := hzero cr (List.mem_cons_self ..)
        rw [ha, hb] at this
        simp only [zero_mul, zero_add] at this
        apply hv0
        rw [hvec, ha, hb, this]
        funext i
        fin_cases i <;> rfl
    refine ⟨v 0, v 1, v 2, hab, ?_⟩
    intro p hp
    obtain ⟨cr, hcr, rfl⟩ := List.mem_map.mp hp
    exact hzero cr hcr

/-- C3: on three or more correspondences whose source points are collinear or
coincident, `estimate` fails with `DegenerateFit` — it never returns a
parameter matrix. -/
theorem estimate_collinear_degenerate (data : List Corr)
    (h3 : 3 ≤ data.length) (hcol : collinearPts (srcPts data)) :
    estimate data = Except.error FitError.DegenerateFit := by
  have hne : data ≠ [] := by
    intro h
    rw [h] at h3
    simp at h3
  have hdet : detN data = 0 := (collinear_iff_detN_zero data hne).mp hcol
  unfold detN det3 at hdet
  simp only [estimate, det3]
  rw [if_pos hdet]

/-- C3 witness: three collinear source points (on the line y = x) make
`estimate` fail with `DegenerateFit`. -/
theorem estimate_collinear_degenerate_witness :
    estimate wDataCol = Except.error FitError.DegenerateFit := by
  apply estimate_collinear_degenerate wDataCol (by decide)
  refine ⟨1, -1, 0, Or.inl one_ne_zero, ?_⟩
  intro p hp
  simp only [srcPts, wDataCol, List.map_cons, List.map_nil,
    List.mem_cons, List.not_mem_nil, or_false] at hp
  rcases hp with rfl | rfl | rfl
  all_goals norm_num

lemma cramer_col0 (a b c m00 m01 m02 m11 m12 m22 : ℚ) :
    det3 (a * m00 + b * m01 + c * m02) m01 m02
      (a * m01 + b * m11 + c * m12) m11 m12
      (a * m02 + b * m12 + c * m22) m12 m22 =
    a * det3 m00 m01 m02 m01 m11 m12 m02 m12 m22 := by
  simp only [det3]
  ring

lemma cramer_col1 (a b c m00 m01 m02 m11 m12 m22 : ℚ) :
    det3 m00 (a * m00 + b * m01 + c * m02) m02
      m01 (a * m01 + b * m11 + c * m12) m12
      m02 (a * m02 + b * m12 + c * m22) m22 =
    b * det3 m00 m01 m02 m01 m11 m12 m02 m12 m22 := by
  simp only [det3]
  ring

lemma cramer_col2 (a b c m00 m01 m02 m11 m12 m22 : ℚ) :
    det3 m00 m01 (a * m00 + b * m01 + c * m02)
      m01 m11 (a * m01 + b * m11 + c * m12)
      m02 m12 (a * m02 + b * m12 + c * m22) =
    c * det3 m00 m01 m02 m01 m11 m12 m02 m12 m22 := by
  simp only [det3]
  ring

/-- C6: applying an affine transform exactly to at least three non-collinear
source points and estimating from the resulting correspondences recovers the
six parameters of the transform exactly (exact rational arithmetic). -/
theorem estimate_affine_round_trip (T : AffineParams) (pts : List Pt)
    (h3 : 3 ≤ pts.length) (hcol : ¬ collinearPts pts) :
    estimate (pts.map (fun p => (p, applyT T p))) = Except.ok T := by
  obtain ⟨a, b, c, d, e, f⟩ := T
  have hsrc : srcPts (pts.map (fun p => (p, applyT ⟨a, b, c, d, e, f⟩ p))) = pts := by
    simp only [srcPts, List.map_map]
    rw [show (Prod.fst ∘ fun p : Pt => (p, applyT ⟨a, b, c, d, e, f⟩ p)) = id from rfl,
      List.map_id]
  have hne : pts.map (fun p => (p, applyT ⟨a, b, c, d, e, f⟩ p)) ≠ [] := by
    intro h
    have hlen := congrArg List.length h
    simp only [List.length_map, List.length_nil] at hlen
    omega
  have hdet : detN (pts.map (fun p => (p, applyT ⟨a, b, c, d, e, f⟩ p))) ≠ 0 := by
    intro h0
    exact hcol (hsrc ▸ (collinear_iff_detN_zero _ hne).mpr h0)
  have hmem : ∀ cr ∈ pts.map (fun p => (p, applyT ⟨a, b, c, d, e, f⟩ p)),
      cr.2.1 = a * cr.1.1 + b * cr.1.2 + c ∧
      cr.2.2 = d * cr.1.1 + e * cr.1.2 + f := by
    intro cr hcr
    obtain ⟨p, hp, rfl⟩ := List.mem_map.mp hcr
    exact ⟨rfl, rfl⟩
  have hsxu : lsum (fun cr => cr.1.1 * cr.2.1)
        (pts.map (fun p => (p, applyT ⟨a, b, c, d, e, f⟩ p))) =
      a * lsum (fun cr => cr.1.1 * cr.1.1)
        (pts.map (fun p => (p, applyT ⟨a, b, c, d, e, f⟩ p))) +
      b * lsum (fun cr => cr.1.1 * cr.1.2)
        (pts.map (fun p => (p, applyT ⟨a, b, c, d, e, f⟩ p))) +
      c * lsum (fun cr => cr.1.1)
        (pts.map (fun p => (p, applyT ⟨a, b, c, d, e, f⟩ p))) := by
    rw [← lsum_smul3]
    refine lsum_congr_mem _ _ _ (fun cr hcr => ?_)
    rw [(hmem cr hcr).1]
    ring
  have hsyu : lsum (fun cr => cr.1.2 * cr.2.1)
        (pts.map (fun p => (p, applyT ⟨a, b, c, d, e, f⟩ p))) =
      a * lsum (fun cr => cr.1.1 * cr.1.2)
        (pts.map (fun p => (p, applyT ⟨a, b, c, d, e, f⟩ p))) +
      b * lsum (fun cr => cr.1.2 * cr.1.2)
        (pts.map (fun p => (p, applyT ⟨a, b, c, d, e, f⟩ p))) +
      c * lsum (fun cr => cr.1.2)
        (pts.map (fun p => (p, applyT ⟨a, b, c, d, e, f⟩ p))) := by
    rw [← lsum_smul3]
    refine lsum_congr_mem _ _ _ (fun cr hcr => ?_)
    rw [(hmem cr hcr).1]
    ring
  have hsu : lsum (fun cr => cr.2.1)
        (pts.map (fun p => (p, applyT ⟨a, b, c, d, e, f⟩ p))) =
      a * lsum (fun cr => cr.1.1)
        (pts.map (fun p => (p, applyT ⟨a, b, c, d, e, f⟩ p))) +
      b * lsum (fun cr => cr.1.2)
        (pts.map (fun p => (p, applyT ⟨a, b, c, d, e, f⟩ p))) +
      c * lsum (fun _ => (1 : ℚ))
        (pts.map (fun p => (p, applyT ⟨a, b, c, d, e, f⟩ p))) := by
    rw [← lsum_smul3]
    refine lsum_congr_mem _ _ _ (fun cr hcr => ?_)
    rw [(hmem cr hcr).1]
    ring
  have hsxv : lsum (fun cr => cr.1.1 * cr.2.2)
        (pts.map (fun p => (p, applyT ⟨a, b, c, d, e, f⟩ p))) =
      d * lsum (fun cr => cr.1.1 * cr.1.1)
        (pts.map (fun p => (p, applyT ⟨a, b, c, d, e, f⟩ p))) +
      e * lsum (fun cr => cr.1.1 * cr.1.2)
        (pts.map (fun p => (p, applyT ⟨a, b, c, d, e, f⟩ p))) +
      f * lsum (fun cr => cr.1.1)
        (pts.map (fun p => (p, applyT ⟨a, b, c, d, e, f⟩ p))) := by
    rw [← lsum_smul3]
    refine lsum_congr_mem _ _ _ (fun cr hcr => ?_)
    rw [(hmem cr hcr).2]
    ring
  have hsyv : lsum (fun cr => cr.1.2 * cr.2.2)
        (pts.map (fun p => (p, applyT ⟨a, b, c, d, e, f⟩ p))) =
      d * lsum (fun cr => cr.1.1 * cr.1.2)
        (pts.map (fun p => (p, applyT ⟨a, b, c, d, e, f⟩ p))) +
      e * lsum (fun cr => cr.1.2 * cr.1.2)
        (pts.map (fun p => (p, applyT ⟨a, b, c, d, e, f⟩ p))) +
      f * lsum (fun cr => cr.1.2)
        (pts.map (fun p => (p, applyT ⟨a, b, c, d, e, f⟩ p))) := by
    rw [← lsum_smul3]
    refine lsum_congr_mem _ _ _ (fun cr hcr => ?_)
    rw [(hmem cr hcr).2]
    ring
  have hsv : lsum (fun cr => cr.2.2)
        (pts.map (fun p => (p, applyT ⟨a, b, c, d, e, f⟩ p))) =
      d * lsum (fun cr => cr.1.1)
        (pts.map (fun p => (p, applyT ⟨a, b, c, d, e, f⟩ p))) +
      e * lsum (fun cr => cr.1.2)
        (pts.map (fun p => (p, applyT ⟨a, b, c, d, e, f⟩ p))) +
      f * lsum (fun _ => (1 : ℚ))
        (pts.map (fun p => (p, applyT ⟨a, b, c, d, e, f⟩ p))) := by
    rw [← lsum_smul3]
    refine lsum_congr_mem _ _ _ (fun cr hcr => ?_)
    rw [(hmem cr hcr).2]
    ring
  have hdet3 : det3
      (lsum (fun cr => cr.1.1 * cr.1.1) (pts.map (fun p => (p, applyT ⟨a, b, c, d, e, f⟩ p))))
      (lsum (fun cr => cr.1.1 * cr.1.2) (pts.map (fun p => (p, applyT ⟨a, b, c, d, e, f⟩ p))))
      (lsum (fun cr => cr.1.1) (pts.map (fun p => (p, applyT ⟨a, b, c, d, e, f⟩ p))))
      (lsum (fun cr => cr.1.1 * cr.1.2) (pts.map (fun p => (p, applyT ⟨a, b, c, d, e, f⟩ p))))
      (lsum (fun cr => cr.1.2 * cr.1.2) (pts.map (fun p => (p, applyT ⟨a, b, c, d, e, f⟩ p))))
      (lsum (fun cr => cr.1.2) (pts.map (fun p => (p, applyT ⟨a, b, c, d, e, f⟩ p))))
      (lsum (fun cr => cr.1.1) (pts.map (fun p => (p, applyT ⟨a, b, c, d, e, f⟩ p))))
      (lsum (fun cr => cr.1.2) (pts.map (fun p => (p, applyT ⟨a, b, c, d, e, f⟩ p))))
      (lsum (fun _ => (1 : ℚ)) (pts.map (fun p => (p, applyT ⟨a, b, c, d, e, f⟩ p)))) ≠ 0 := hdet
  simp only [estimate]
  rw [if_neg hdet3]
  rw [hsxu, hsyu, hsu, hsxv, hsyv, hsv]
  rw [cramer_col0, cramer_col1, cramer_col2, cramer_col0, cramer_col1, cramer_col2]
  rw [mul_div_cancel_right₀ _ hdet3, mul_div_cancel_right₀ _ hdet3,
    mul_div_cancel_right₀ _ hdet3, mul_div_cancel_right₀ _ hdet3,
    mul_div_cancel_right₀ _ hdet3, mul_div_cancel_right₀ _ hdet3]

/-- C6 witness: the transform with parameters (1,2,3,4,5,6) is recovered
exactly from three non-collinear points. -/
theorem estimate_affine_round_trip_witness :
    estimate ([((0 : ℚ), (0 : ℚ)), ((1 : ℚ), (0 : ℚ)), ((0 : ℚ), (1 : ℚ))].map
      (fun p => (p, applyT ⟨1, 2, 3, 4, 5, 6⟩ p))) =
      Except.ok ⟨1, 2, 3, 4, 5, 6⟩ := by
  apply estimate_affine_round_trip ⟨1, 2, 3, 4, 5, 6⟩ _ (by decide)
  rintro ⟨al, be, ga, hab, hall⟩
  have h1 := hall ((0 : ℚ), (0 : ℚ)) (by simp)
  have h2 := hall ((1 : ℚ), (0 : ℚ)) (by simp)
  have h3 := hall ((0 : ℚ), (1 : ℚ)) (by simp)
  norm_num at h1 h2 h3
  rcases hab with h | h
  · exact h (by linarith)
  · exact h (by linarith)
